import Mathlib

set_option maxRecDepth 8000

/-!
Shallow embedding of the ip.js IPv4 address/mask library (src/unnamed/part_003,
the repository's authoritative variant).

Strings are embedded as `List Char`.  JavaScript numbers are modelled exactly:
integers as `Int`/`Nat`, and the results of `ToNumber` string coercion as exact
decimal values `m * 10^e` (`JSDec`) together with NaN and signed-infinity
markers.  IEEE-double rounding never affects the verified properties except in
`Mask.parse`'s `Math.ceil(Math.log(m)/Math.LN2)` expression, whose
double-precision behaviour is modelled explicitly (see `jsCeilLog2`).
JavaScript `null` results are `Option.none`; a thrown `TypeError` is
`Except.error ()`.
-/

-- § Exact decimal numbers, for the ECMAScript ToNumber coercion

/-- An exact numeric value `m * 10^e`.  Every value producible by JavaScript's
`ToNumber` string grammar has this shape (hex/octal/binary literals have
`e = 0`).  Doubles are modelled exactly; rounding cannot change NaN-ness, and
changes the comparisons used by the library only through denormal underflow
(exponents below about -323), which no claim involves. -/
structure JSDec where
  m : Int
  e : Int
  deriving DecidableEq

/-- The rational value denoted by a `JSDec`. -/
def JSDec.toRat (d : JSDec) : ℚ := (d.m : ℚ) * (10 : ℚ) ^ d.e

/-- Exact comparison `d <= k` against an integer, by clearing the power of
ten. -/
def JSDec.leInt (d : JSDec) (k : Int) : Bool :=
  if 0 ≤ d.e then d.m * 10 ^ d.e.toNat ≤ k else d.m ≤ k * 10 ^ (-d.e).toNat

/-- Exact comparison `d == k` against an integer. -/
def JSDec.eqInt (d : JSDec) (k : Int) : Bool :=
  if 0 ≤ d.e then d.m * 10 ^ d.e.toNat = k else d.m = k * 10 ^ (-d.e).toNat

/-- Whether the value is strictly negative. -/
def JSDec.isNeg (d : JSDec) : Bool := d.m < 0

/-- Negation. -/
def JSDec.neg (d : JSDec) : JSDec := ⟨-d.m, d.e⟩

/-- Result of JavaScript `ToNumber`: NaN, a signed infinity (`true` means
negative), or an exact numeric value. -/
inductive JSNum where
  | nan : JSNum
  | inf : Bool → JSNum
  | val : JSDec → JSNum
  deriving DecidableEq

-- § ECMAScript ToNumber (the `Number(x)` / `isNaN(x)` coercion used by
-- `IP.partIsValid` and `Mask.parse`)

/-- JavaScript WhiteSpace and LineTerminator characters recognised by
`ToNumber` and `parseInt` (tab, LF, VT, FF, CR, space, NBSP, LS, PS, BOM). -/
def isWSChar (c : Char) : Bool :=
  c.toNat = 9 || c.toNat = 10 || c.toNat = 11 || c.toNat = 12 || c.toNat = 13 ||
  c.toNat = 32 || c.toNat = 160 || c.toNat = 8232 || c.toNat = 8233 || c.toNat = 65279

/-- Decimal digit test (`'0'` is 48, `'9'` is 57). -/
def isDecDigit (c : Char) : Bool := 48 ≤ c.toNat && c.toNat ≤ 57

/-- Numeric value of a digit character in bases up to 36, as in JavaScript
numeric literals and `parseInt` (`0`-`9`, `a`-`z`, `A`-`Z`). -/
def digitValue (c : Char) : Option Nat :=
  if 48 ≤ c.toNat ∧ c.toNat ≤ 57 then some (c.toNat - 48)
  else if 97 ≤ c.toNat ∧ c.toNat ≤ 122 then some (c.toNat - 97 + 10)
  else if 65 ≤ c.toNat ∧ c.toNat ≤ 90 then some (c.toNat - 65 + 10)
  else none

/-- Whether `c` is a digit of base `b`. -/
def isRadixDigit (b : Nat) (c : Char) : Bool :=
  match digitValue c with
  | some v => v < b
  | none => false

/-- Value of a digit string in base `b` (digits assumed pre-checked). -/
def digitsToNat (b : Nat) (l : List Char) : Nat :=
  l.foldl (fun acc c => acc * b + (digitValue c).getD 0) 0

/-- Strip leading and trailing JavaScript whitespace. -/
def trimWS (s : List Char) : List Char :=
  ((s.dropWhile isWSChar).reverse.dropWhile isWSChar).reverse

/-- The exponent of a decimal literal: empty input means no exponent (0);
otherwise `e`/`E`, an optional sign and a nonempty digit string must consume
the whole input; `none` is NaN. -/
def expValue (r : List Char) : Option Int :=
  match r with
  | [] => some 0
  | e :: r2 =>
    if e = 'e' ∨ e = 'E' then
      match r2 with
      | '+' :: r3 =>
        if r3 ≠ [] ∧ r3.all isDecDigit then some (digitsToNat 10 r3 : Int) else none
      | '-' :: r3 =>
        if r3 ≠ [] ∧ r3.all isDecDigit then some (-(digitsToNat 10 r3 : Int)) else none
      | _ =>
        if r2 ≠ [] ∧ r2.all isDecDigit then some (digitsToNat 10 r2 : Int) else none
    else none

/-- Value of an unsigned ECMAScript StrDecimalLiteral
(`Digits ['.' Digits] [Exp]` or `'.' Digits [Exp]`), consuming the entire
input; `none` is NaN.  The value `(i + f/10^l) * 10^x` is represented as
`(i*10^l + f) * 10^(x-l)`. -/
def decValue (r : List Char) : Option JSDec :=
  match r.dropWhile isDecDigit with
  | '.' :: r2 =>
    if r.takeWhile isDecDigit = [] ∧ r2.takeWhile isDecDigit = [] then none
    else
      (expValue (r2.dropWhile isDecDigit)).map (fun x =>
        ⟨(digitsToNat 10 (r.takeWhile isDecDigit) : Int) * 10 ^ (r2.takeWhile isDecDigit).length +
           (digitsToNat 10 (r2.takeWhile isDecDigit) : Int),
         x - (r2.takeWhile isDecDigit).length⟩)
  | _ =>
    if r.takeWhile isDecDigit = [] then none
    else (expValue (r.dropWhile isDecDigit)).map (fun x => ⟨(digitsToNat 10 (r.takeWhile isDecDigit) : Int), x⟩)

/-- A base-`b` integer tail such as the `ab3` of `0xab3`: nonempty, all digits
of the base. -/
def radixTail (b : Nat) (r : List Char) : JSNum :=
  if r ≠ [] ∧ r.all (isRadixDigit b) then .val ⟨(digitsToNat b r : Int), 0⟩ else .nan

/-- Character list of the `Infinity` keyword. -/
def infinityChars : List Char := ("Infinity").toList

/-- Signed decimal part of the ToNumber grammar, after any sign has been
removed. -/
def unsignedDec (r : List Char) (neg : Bool) : JSNum :=
  if r = infinityChars then .inf neg
  else
    match decValue r with
    | some d => .val (if neg then d.neg else d)
    | none => .nan

/-- Optional sign followed by `Infinity` or a decimal literal
(`'+'` is 43, `'-'` is 45). -/
def signedDec (t : List Char) : JSNum :=
  match t with
  | [] => unsignedDec [] false
  | c :: r =>
    if c = '+' then unsignedDec r false
    else if c = '-' then unsignedDec r true
    else unsignedDec (c :: r) false

/-- Value of a whitespace-trimmed ToNumber input: empty is 0; `0x`/`0o`/`0b`
literals (unsigned); otherwise an optionally signed decimal literal or
`Infinity`. -/
def numLitVal (t : List Char) : JSNum :=
  match t with
  | [] => .val ⟨0, 0⟩
  | c :: r =>
    if c = '0' then
      match r with
      | c2 :: r2 =>
        if c2 = 'x' ∨ c2 = 'X' then radixTail 16 r2
        else if c2 = 'o' ∨ c2 = 'O' then radixTail 8 r2
        else if c2 = 'b' ∨ c2 = 'B' then radixTail 2 r2
        else signedDec t
      | [] => signedDec t
    else signedDec t

/-- JavaScript `ToNumber` on a string: trim whitespace, then parse the numeric
literal grammar. -/
def strToNum (s : List Char) : JSNum := numLitVal (trimWS s)

-- § ECMAScript parseInt, as called by `IP.parsePart`

/-- JavaScript `parseInt(s, b)` for an explicit radix `b` (the library passes
8, 10 or 16): skip leading whitespace, read an optional sign, strip a `0x`/`0X`
prefix when `b = 16`, then take the longest prefix of base-`b` digits; no
digits is NaN (`none`).  The exact integer is returned; double rounding (only
relevant beyond 2^53, where `IP.parse` rejects the value as out of range
anyway) is not modelled. -/
def parseIntJS (b : Nat) (s : List Char) : Option Int :=
  let t := s.dropWhile isWSChar
  let signed : Bool × List Char :=
    match t with
    | '-' :: r => (true, r)
    | '+' :: r => (false, r)
    | _ => (false, t)
  let t2 :=
    if b = 16 then
      match signed.2 with
      | '0' :: x :: r => if x = 'x' ∨ x = 'X' then r else signed.2
      | _ => signed.2
    else signed.2
  let ds := t2.takeWhile (isRadixDigit b)
  if ds = [] then none
  else some (if signed.1 then -(digitsToNat b ds : Int) else (digitsToNat b ds : Int))

-- § IP.parsePart and the part pipeline

/-- Result of `IP.parsePart` on a string: `null`, NaN, or a number.
(`IP.parsePart` returns `null` exactly when `parseInt` produced a negative
number; a NaN `parseInt` result passes through as NaN.) -/
inductive PartVal where
  | pnull : PartVal
  | pnan : PartVal
  | pnum : Int → PartVal
  deriving DecidableEq

/-- Wrap a `parseInt` result the way the tail of `IP.parsePart` does:
NaN stays NaN (NaN < 0 is false), a negative result becomes `null`. -/
def partValOfParseInt (r : Option Int) : PartVal :=
  match r with
  | none => .pnan
  | some v => if v < 0 then .pnull else .pnum v

/-- The string case of `IP.parsePart`: a part whose first character is `0`
is hexadecimal when the second is `x`/`X` and octal otherwise; anything else
is decimal.  (The numeric/IP-object pass-through case of the source is
modelled at each call site that can receive a number.) -/
def IP.parsePart (s : List Char) : PartVal :=
  match s with
  | '0' :: rest =>
    match rest with
    | c :: _ =>
      if c = 'x' ∨ c = 'X' then partValOfParseInt (parseIntJS 16 s)
      else partValOfParseInt (parseIntJS 8 s)
    | [] => partValOfParseInt (parseIntJS 8 s)
  | _ => partValOfParseInt (parseIntJS 10 s)

/-- The `IP.partIsValid` test on a string part: not NaN and not negative under
`ToNumber` coercion (`part === null` is impossible for a split substring). -/
def IP.partIsValid (p : List Char) : Bool :=
  match strToNum p with
  | .nan => false
  | .inf neg => !neg
  | .val d => !d.isNeg

/-- JavaScript `String.prototype.split('.')` on a character list.  Splitting
the empty string yields `[[]]` (one empty part), exactly as in JavaScript. -/
def splitOnDot : List Char → List (List Char)
  | [] => [[]]
  | c :: cs =>
    let r := splitOnDot cs
    if c = '.' then [] :: r
    else (c :: r.headD []) :: r.tail

/-- The `IP.splitParts` function: split on `.` and return `null` if any part
fails `IP.partIsValid`. -/
def IP.splitParts (s : List Char) : Option (List (List Char)) :=
  let parts := splitOnDot s
  if parts.all IP.partIsValid then some parts else none

/-- Result of `IP.addParts`: `null`, NaN, or a number. -/
inductive AddResult where
  | null : AddResult
  | nan : AddResult
  | num : Int → AddResult
  deriving DecidableEq

/-- One weighted summand `IP.parsePart(p) * w` of `IP.addParts`, as coerced by
`value += ...`: a `null` part coerces to 0, a NaN part poisons the sum
(`none`). -/
def IP.partTerm (p : List Char) (w : Int) : Option Int :=
  match IP.parsePart p with
  | .pnull => some 0
  | .pnan => none
  | .pnum v => some (v * w)

/-- Sum a list of `value +=` summands starting from 0; NaN poisons. -/
def jsSum (l : List (Option Int)) : AddResult :=
  match l.foldl (fun acc t =>
    match acc, t with
    | some a, some v => some (a + v)
    | _, _ => (none : Option Int)) (some 0) with
  | some v => .num v
  | none => .nan

/-- The `IP.addParts` switch: 0 to 4 parts are weighted by the part count;
any other count — or a `null` parts array — gives `null`. -/
def IP.addParts (parts : Option (List (List Char))) : AddResult :=
  match parts with
  | none => .null
  | some ps =>
    match ps with
    | [] => .num 0
    | [a] => jsSum [IP.partTerm a 1]
    | [a, b] => jsSum [IP.partTerm a 0x01000000, IP.partTerm b 1]
    | [a, b, c] => jsSum [IP.partTerm a 0x01000000, IP.partTerm b 0x00010000, IP.partTerm c 1]
    | [a, b, c, d] =>
      jsSum [IP.partTerm a 0x01000000, IP.partTerm b 0x00010000,
             IP.partTerm c 0x00000100, IP.partTerm d 1]
    | _ => .null

-- § IP.parse

/-- The minimum value an IP can have. -/
def IP.MIN_VALUE : Nat := 0

/-- The maximum value an IP can have. -/
def IP.MAX_VALUE : Nat := 0xffffffff

/-- An input to `IP.parse`: a number (integers suffice for every claim; NaN is
provided separately), a string, the literal `null`, or an IP object carrying
its stored `value` (a canonical value or `null`). -/
inductive IPInput where
  | num : Int → IPInput
  | nan : IPInput
  | str : List Char → IPInput
  | jsnull : IPInput
  | addr : Option Nat → IPInput

/-- The string path of `IP.parse`: split, sum, then reject `null`, NaN and
out-of-range values (`Math.floor` is the identity on the integer results). -/
def IP.parseStr (s : List Char) : Option Nat :=
  match IP.addParts (IP.splitParts s) with
  | .null => none
  | .nan => none
  | .num v => if v < 0 ∨ (IP.MAX_VALUE : Int) < v then none else some v.toNat

/-- The `IP.parse` function.  A number passes through (then gets
range-checked); an IP object contributes its stored value; `null` is
stringified to `"null"` by `String(input)` and parsed as a string, which
fails. -/
def IP.parse (input : IPInput) : Option Nat :=
  match input with
  | .num n => if n < 0 ∨ (IP.MAX_VALUE : Int) < n then none else some n.toNat
  | .nan => none
  | .str s => IP.parseStr s
  | .jsnull => IP.parseStr (("null").toList)
  | .addr v =>
    match v with
    | none => none
    | some x => if (IP.MAX_VALUE : Int) < (x : Int) then none else some x

-- § IP.getParts, IP.parseRadix and IP.format

/-- The four octets of a canonical value, highest first.  The source
(`IP.getParts`) re-parses its input and applies `Math.floor(v / w) % 0x100`;
on the nonnegative parse results it is applied to, that is Nat division and
remainder. -/
def IP.getParts (v : Nat) : List Nat :=
  [v / 0x01000000 % 0x100, v / 0x00010000 % 0x100, v / 0x00000100 % 0x100, v % 0x100]

/-- An input to `IP.parseRadix`: a number, a string, or `undefined` (the
radix argument omitted). -/
inductive RadInput where
  | num : JSDec → RadInput
  | str : List Char → RadInput
  | undef : RadInput

/-- ASCII lower-casing of one character, as `String.prototype.toLowerCase`
acts on the mnemonic radix strings. -/
def lowerChar (c : Char) : Char :=
  if 65 ≤ c.toNat ∧ c.toNat ≤ 90 then Char.ofNat (c.toNat + 32) else c

/-- The `IP.parseRadix` function: a numeric value (or numeric string) equal to
8, 10 or 16 resolves to itself; any other non-NaN number resolves to `null`;
otherwise the lower-cased first character `o`/`d`/`h` picks the radix.
(`String(undefined)` is `"undefined"`, whose first character `u` resolves to
`null`.) -/
def IP.parseRadix (rad : RadInput) : Option Nat :=
  let numRad : JSNum :=
    match rad with
    | .num d => .val d
    | .str s => strToNum s
    | .undef => .nan
  match numRad with
  | .val d =>
    if d.eqInt 8 then some 8
    else if d.eqInt 10 then some 10
    else if d.eqInt 16 then some 16
    else none
  | .inf _ => none
  | .nan =>
    match rad with
    | .str s =>
      match s with
      | [] => none
      | c :: _ =>
        if lowerChar c = 'o' then some 8
        else if lowerChar c = 'd' then some 10
        else if lowerChar c = 'h' then some 16
        else none
    | _ => none

/-- Digit character for `Number.prototype.toString(radix)` (lowercase). -/
def digitChar (d : Nat) : Char :=
  if d < 10 then Char.ofNat (('0').toNat + d) else Char.ofNat (('a').toNat + d - 10)

/-- Digit accumulator for `natToStr` (fuel-based so that it reduces
definitionally; 64 digits are ample for every representable value). -/
def natToStrAux : Nat → Nat → Nat → List Char → List Char
  | 0, _, _, acc => acc
  | fuel + 1, b, n, acc =>
    if n = 0 then acc else natToStrAux fuel b (n / b) (digitChar (n % b) :: acc)

/-- JavaScript `n.toString(b)` for a nonnegative integer. -/
def natToStr (b n : Nat) : List Char :=
  if n = 0 then [('0')] else natToStrAux 64 b n []

/-- JavaScript `n.toString(b)` for an integer (sign then magnitude). -/
def intToStrJS (b : Nat) (n : Int) : List Char :=
  if n < 0 then '-' :: natToStr b n.natAbs else natToStr b n.natAbs

/-- The `IP.formatPart` function on a numeric part (the only case
`IP.format` reaches: a numeric `part` passes through `IP.parsePart` unchanged
and is never `null`).  An unresolved radix falls back to 10 via `|| 10`;
the `switch` has no arm for any other value (`null`). -/
def IP.formatPart (o : Int) (rad : RadInput) : Option (List Char) :=
  match (IP.parseRadix rad).getD 10 with
  | 8 => some ('0' :: intToStrJS 8 o)
  | 10 => some (intToStrJS 10 o)
  | 16 => some ('0' :: 'x' :: intToStrJS 16 o)
  | _ => none

/-- JavaScript `Array.prototype.join('.')`. -/
def joinDot : List (List Char) → List Char
  | [] => []
  | [p] => p
  | p :: ps => p ++ '.' :: joinDot ps

/-- The `IP.format` function: parse, resolve the radix with default 10, format
the four octets and join with dots.  (`Array.join` would render a `null`
element as the empty string; `formatPart` cannot return `null` here because
the resolved radix is 8, 10 or 16.) -/
def IP.format (input : IPInput) (rad : RadInput) : Option (List Char) :=
  match IP.parse input with
  | none => none
  | some v =>
    let r := (IP.parseRadix rad).getD 10
    some (joinDot ((IP.getParts v).map
      (fun o => (IP.formatPart (o : Int) (.num ⟨(r : Int), 0⟩)).getD [])))

-- § IP.next, IP.prev, IP.not

/-- The `IP.next` function.  A `null` parse coerces to 0 both in the
`value >= IP.MAX_VALUE` comparison and in `value + 1`, hence `getD 0`.
The returned object's value is `IP.parse` of the incremented number. -/
def IP.next (ip : IPInput) : Option Nat :=
  let value := (IP.parse ip).getD 0
  if IP.MAX_VALUE ≤ value then none
  else IP.parse (.num ((value : Int) + 1))

/-- The `IP.prev` function, dually to `IP.next`. -/
def IP.prev (ip : IPInput) : Option Nat :=
  let value := (IP.parse ip).getD 0
  if value ≤ IP.MIN_VALUE then none
  else IP.parse (.num ((value : Int) - 1))

/-- One octet of the complement: `~part & 0xff` on an octet `p ≤ 255` is
`255 - p`. -/
def IP.notOctet (p : Nat) : Nat := 255 - p

/-- The `IP.not` function: complement each octet and reassemble with
`total * 0x100 + (~part & 0xff)`.  When the input does not parse,
`IP.getParts` yields `null` and the subsequent `null.reduce` throws a
`TypeError` (`Except.error ()`).  The result is always in range, so the final
`new IP(result)` stores exactly `result`. -/
def IP.not (ip : IPInput) : Except Unit Nat :=
  match IP.parse ip with
  | none => .error ()
  | some v =>
    .ok ((IP.getParts v).foldl (fun total part => total * 0x100 + IP.notOctet part) 0)

deriving instance DecidableEq for Except

-- § Mask

/-- The minimum value a mask can have. -/
def Mask.MIN_VALUE : Nat := 0

/-- The maximum value a mask can have (32, all bits masked). -/
def Mask.MAX_VALUE : Nat := 0x20

/-- Least `k` with `m ≤ 2^k`, i.e. the exact `⌈log₂ m⌉` for `m ≥ 1`
(fuel-based so that it reduces definitionally; 64 bits are ample). -/
def ceilLog2Aux : Nat → Nat → Nat → Nat
  | 0, _, k => k
  | fuel + 1, m, k => if m ≤ 2 ^ k then k else ceilLog2Aux fuel m (k + 1)

/-- Exact `⌈log₂ m⌉` for `m ≥ 1` (and 0 for `m = 0`). -/
def ceilLog2 (m : Nat) : Nat := ceilLog2Aux 64 m 0

/-- The value of `Math.ceil(Math.log(m) / Math.LN2)` computed on IEEE doubles,
for `1 ≤ m ≤ 2^32`.  For `m` that is not a power of two the true logarithm is
at least about `3e-10` away from an integer, far beyond the roundoff of the
double computation, so the ceiling is exact.  For the powers of two the
correctly rounded double of `log(2^k)` divided by the double `Math.LN2` equals
`k` exactly except at `k = 29` and `k = 31`, where the quotient is one ulp
above `k` (`Math.log(2**29)/Math.LN2 = 29.000000000000004`, a well-documented
value; likewise for `2**31`), making the ceiling `k + 1`. -/
def jsCeilLog2 (m : Nat) : Nat :=
  if m = 2 ^ 29 ∨ m = 2 ^ 31 then ceilLog2 m + 1 else ceilLog2 m

/-- JavaScript `input.substring(input.indexOf('/') + 1)`: everything after the
first slash. -/
def afterFirstSlash (s : List Char) : List Char :=
  (s.dropWhile (fun c => c ≠ '/')).tail

/-- The `!isNaN(input) && input <= Mask.MAX_VALUE` gate of `Mask.parse`:
`some` is the value `Number(input)` passed through (a number no larger than
32, or `-Infinity`); `none` falls through to the string handling. -/
def maskNumericPass (s : List Char) : Option JSNum :=
  match strToNum s with
  | .nan => none
  | .inf neg => if neg then some (.inf true) else none
  | .val d => if d.leInt (Mask.MAX_VALUE : Int) then some (.val d) else none

/-- The substring after the last slash — the part of the input the claims
describe `Mask.parse` as acting on (the code reaches it by recursing one
slash at a time). -/
def afterLastSlash (s : List Char) : List Char :=
  (s.reverse.takeWhile (fun c => c ≠ '/')).reverse

/-- The string case of `Mask.parse`, with explicit fuel for the recursion on
slash-suffix strings (each step strictly shortens the string).
A string that coerces to a number `≤ 32` (or to `-Infinity`) is returned as
that number; otherwise a string containing `/` recurses on the part after the
first `/`; otherwise the string is a dotted mask: complement it as an IP
(which throws for unparseable strings) and subtract the bit count from 32. -/
def maskParseStrF : Nat → List Char → Except Unit (Option JSNum)
  | 0, _ => .error ()
  | fuel + 1, s =>
    match maskNumericPass s with
    | some j => .ok (some j)
    | none =>
      if ('/') ∈ s then maskParseStrF fuel (afterFirstSlash s)
      else
        match IP.not (.str s) with
        | .error e => .error e
        | .ok inv =>
          .ok (some (.val ⟨(Mask.MAX_VALUE : Int) - (jsCeilLog2 (inv + 1) : Int), 0⟩))

/-- The string case of `Mask.parse` (fuel `length + 1` always suffices). -/
def Mask.parseStr (s : List Char) : Except Unit (Option JSNum) :=
  maskParseStrF (s.length + 1) s

/-- An input to `Mask.parse`: a number, a string, or `null`.  (A `Mask` or
`IP` object input coerces through `valueOf` to its numeric value and behaves
as the corresponding number.) -/
inductive MaskInput where
  | num : JSDec → MaskInput
  | str : List Char → MaskInput
  | jsnull : MaskInput

/-- The `Mask.parse` function.  `null` returns `null`; a number `≤ 32`
(including negative or fractional ones — there is no lower bound check)
passes through; a larger number is stringified by `String(input)` and re-enters
the string path.  Number-to-string conversion is modelled for nonnegative
integers (plain decimal digits, exact below 1e21); no claim reaches this
branch with a non-integer, so other shapes are mapped to `Except.error ()`. -/
def Mask.parse (input : MaskInput) : Except Unit (Option JSNum) :=
  match input with
  | .jsnull => .ok none
  | .num d =>
    if d.leInt (Mask.MAX_VALUE : Int) then .ok (some (.val d))
    else if 0 ≤ d.e ∧ 0 ≤ d.m then Mask.parseStr (natToStr 10 (d.m.toNat * 10 ^ d.e.toNat))
    else .error ()
  | .str s => Mask.parseStr s

/-- The `Mask.format` function: resolve to a bit-length, complement
`2^(32 - n) - 1` through `IP.not` and format the result in dotted decimal
(radix argument omitted).  A parsed value that is a negative integer or an
integer above 32 makes `IP.not` throw (its input falls outside [0, 2^32));
`-Infinity` likewise throws.  Non-integer parsed values (reachable only from
fractional numeric inputs, which no claim involves) are outside the model and
mapped to `.ok none`. -/
def Mask.format (input : MaskInput) : Except Unit (Option (List Char)) :=
  match Mask.parse input with
  | .error e => .error e
  | .ok none => .ok none
  | .ok (some j) =>
    match j with
    | .nan => .ok none
    | .inf _ => .error ()
    | .val d =>
      if d.e = 0 then
        if 0 ≤ d.m ∧ d.m ≤ (Mask.MAX_VALUE : Int) then
          match IP.not (.num ((2 ^ (Mask.MAX_VALUE - d.m.toNat) - 1 : Nat) : Int)) with
          | .error e => .error e
          | .ok inv => .ok (IP.format (.addr (some inv)) .undef)
        else .error ()
      else .ok none

-- § Arithmetic helpers

/-- Complementing against an all-ones mask is subtraction from it. -/
theorem xor_all_ones {w a : Nat} (h : a < 2 ^ w) : a ^^^ (2 ^ w - 1) = 2 ^ w - 1 - a := by
  apply Nat.eq_of_testBit_eq
  intro i
  have hsub : 2 ^ w - 1 - a = 2 ^ w - (a + 1) := by omega
  rw [hsub, Nat.testBit_two_pow_sub_succ h, Nat.testBit_xor, Nat.testBit_two_pow_sub_one]
  rcases Nat.lt_or_ge i w with hi | hi
  · simp [hi]
  · have ha : a.testBit i = false :=
      Nat.testBit_lt_two_pow (lt_of_lt_of_le h (Nat.pow_le_pow_right (by norm_num) hi))
    simp [ha, Nat.not_lt.mpr hi]

/-- The octet-complement fold of `IP.not` computes the 32-bit complement. -/
theorem notFold_eq (v : Nat) (hv : v ≤ IP.MAX_VALUE) :
    (IP.getParts v).foldl (fun total part => total * 0x100 + IP.notOctet part) 0 =
      0xffffffff - v := by
  simp only [IP.getParts, IP.notOctet, List.foldl, IP.MAX_VALUE] at *
  omega

/-- Recomposition of a 32-bit value from its four octets. -/
theorem octets_recompose (v : Nat) (hv : v ≤ IP.MAX_VALUE) :
    v / 0x01000000 % 0x100 * 0x01000000 + v / 0x00010000 % 0x100 * 0x00010000 +
      v / 0x00000100 % 0x100 * 0x00000100 + v % 0x100 = v := by
  simp only [IP.MAX_VALUE] at hv
  omega

-- § Octet format/parse round-trip (checked exhaustively over the 256 octet
-- values for each of the three radices)

/-- Octal-formatted octets: well-formed, valid parts, and parsing back gives
the octet. -/
theorem partRound8 : ∀ o : Nat, o < 256 →
    (IP.formatPart (o : Int) (.num ⟨8, 0⟩)).isSome = true ∧
    IP.parsePart ((IP.formatPart (o : Int) (.num ⟨8, 0⟩)).getD []) = .pnum (o : Int) ∧
    IP.partIsValid ((IP.formatPart (o : Int) (.num ⟨8, 0⟩)).getD []) = true ∧
    (IP.formatPart (o : Int) (.num ⟨8, 0⟩)).getD [] ≠ [] ∧
    ('.') ∉ (IP.formatPart (o : Int) (.num ⟨8, 0⟩)).getD [] ∧
    ('/') ∉ (IP.formatPart (o : Int) (.num ⟨8, 0⟩)).getD [] := by decide

/-- Decimal-formatted octets: well-formed digit strings, valid parts, and
parsing back gives the octet. -/
theorem partRound10 : ∀ o : Nat, o < 256 →
    (IP.formatPart (o : Int) (.num ⟨10, 0⟩)).isSome = true ∧
    IP.parsePart ((IP.formatPart (o : Int) (.num ⟨10, 0⟩)).getD []) = .pnum (o : Int) ∧
    IP.partIsValid ((IP.formatPart (o : Int) (.num ⟨10, 0⟩)).getD []) = true ∧
    (IP.formatPart (o : Int) (.num ⟨10, 0⟩)).getD [] ≠ [] ∧
    ((IP.formatPart (o : Int) (.num ⟨10, 0⟩)).getD []).all isDecDigit = true := by decide

/-- Hexadecimal-formatted octets: well-formed, valid parts, and parsing back
gives the octet. -/
theorem partRound16 : ∀ o : Nat, o < 256 →
    (IP.formatPart (o : Int) (.num ⟨16, 0⟩)).isSome = true ∧
    IP.parsePart ((IP.formatPart (o : Int) (.num ⟨16, 0⟩)).getD []) = .pnum (o : Int) ∧
    IP.partIsValid ((IP.formatPart (o : Int) (.num ⟨16, 0⟩)).getD []) = true ∧
    (IP.formatPart (o : Int) (.num ⟨16, 0⟩)).getD [] ≠ [] ∧
    ('.') ∉ (IP.formatPart (o : Int) (.num ⟨16, 0⟩)).getD [] ∧
    ('/') ∉ (IP.formatPart (o : Int) (.num ⟨16, 0⟩)).getD [] := by decide

/-- Decimal digits are neither the dot nor the slash delimiter. -/
theorem isDecDigit_ne_delim {c : Char} (h : isDecDigit c = true) : c ≠ '.' ∧ c ≠ '/' := by
  simp only [isDecDigit, Bool.and_eq_true, decide_eq_true_eq] at h
  constructor <;> rintro rfl <;> exact absurd h.1 (by decide)

/-- A list of decimal digits contains no dot. -/
theorem all_digits_no_dot {s : List Char} (h : s.all isDecDigit = true) : ('.') ∉ s := by
  intro hc
  exact (isDecDigit_ne_delim (List.all_eq_true.mp h _ hc)).1 rfl

/-- A list of decimal digits contains no slash. -/
theorem all_digits_no_slash {s : List Char} (h : s.all isDecDigit = true) : ('/') ∉ s := by
  intro hc
  exact (isDecDigit_ne_delim (List.all_eq_true.mp h _ hc)).2 rfl

-- § Splitting and joining on dots

/-- Splitting never produces an empty list of parts. -/
theorem splitOnDot_ne_nil (s : List Char) : splitOnDot s ≠ [] := by
  cases s with
  | nil => simp [splitOnDot]
  | cons c cs =>
    simp only [splitOnDot]
    split <;> simp

/-- Splitting a dot-free string gives that single part. -/
theorem splitOnDot_no_dot {p : List Char} (hp : ('.') ∉ p) : splitOnDot p = [p] := by
  induction p with
  | nil => rfl
  | cons c cs ih =>
    have hc : c ≠ '.' := fun h => hp (h ▸ List.mem_cons_self c cs)
    have ih' := ih (fun h => hp (List.mem_cons_of_mem c h))
    simp [splitOnDot, hc, ih']

/-- Splitting distributes over a dot that follows a dot-free part. -/
theorem splitOnDot_append {p : List Char} (t : List Char) (hp : ('.') ∉ p) :
    splitOnDot (p ++ '.' :: t) = p :: splitOnDot t := by
  induction p with
  | nil => simp [splitOnDot]
  | cons c cs ih =>
    have hc : c ≠ '.' := fun h => hp (h ▸ List.mem_cons_self c cs)
    have ih' := ih (fun h => hp (List.mem_cons_of_mem c h))
    simp [List.cons_append, splitOnDot, hc, ih']

/-- Splitting inverts joining of four dot-free parts. -/
theorem splitOnDot_join_four {s1 s2 s3 s4 : List Char}
    (h1 : ('.') ∉ s1) (h2 : ('.') ∉ s2) (h3 : ('.') ∉ s3) (h4 : ('.') ∉ s4) :
    splitOnDot (joinDot [s1, s2, s3, s4]) = [s1, s2, s3, s4] := by
  show splitOnDot (s1 ++ '.' :: (s2 ++ '.' :: (s3 ++ '.' :: s4))) = _
  rw [splitOnDot_append _ h1, splitOnDot_append _ h2, splitOnDot_append _ h3,
    splitOnDot_no_dot h4]

-- § Parsing a formatted address

/-- Parsing a four-part dotted string whose parts are valid and parse to the
given octets yields their weighted sum. -/
theorem parseStr_four {s1 s2 s3 s4 : List Char} {o1 o2 o3 o4 : Nat}
    (hb1 : o1 < 256) (hb2 : o2 < 256) (hb3 : o3 < 256) (hb4 : o4 < 256)
    (hp1 : IP.parsePart s1 = .pnum (o1 : Int)) (hp2 : IP.parsePart s2 = .pnum (o2 : Int))
    (hp3 : IP.parsePart s3 = .pnum (o3 : Int)) (hp4 : IP.parsePart s4 = .pnum (o4 : Int))
    (hv1 : IP.partIsValid s1 = true) (hv2 : IP.partIsValid s2 = true)
    (hv3 : IP.partIsValid s3 = true) (hv4 : IP.partIsValid s4 = true)
    (hd1 : ('.') ∉ s1) (hd2 : ('.') ∉ s2) (hd3 : ('.') ∉ s3) (hd4 : ('.') ∉ s4) :
    IP.parseStr (joinDot [s1, s2, s3, s4]) =
      some (o1 * 0x01000000 + o2 * 0x00010000 + o3 * 0x00000100 + o4) := by
  have hsplit := splitOnDot_join_four hd1 hd2 hd3 hd4
  simp only [IP.parseStr, IP.splitParts, hsplit, List.all_cons, List.all_nil,
    hv1, hv2, hv3, hv4, Bool.and_self, Bool.true_and, if_true]
  simp only [IP.addParts, jsSum, IP.partTerm, hp1, hp2, hp3, hp4, List.foldl]
  rw [if_neg (by simp only [IP.MAX_VALUE]; push_cast; omega)]
  simp only [Option.some.injEq]
  omega

/-- The values `IP.parseRadix` can resolve to. -/
theorem parseRadix_values {rad : RadInput} {r : Nat} (h : IP.parseRadix rad = some r) :
    r = 8 ∨ r = 10 ∨ r = 16 := by
  unfold IP.parseRadix at h
  cases rad with
  | num d =>
    simp only at h
    split_ifs at h <;> simp_all
  | str s =>
    simp only at h
    rcases hn : strToNum s with _ | neg | d <;> rw [hn] at h <;> simp only at h
    · cases s with
      | nil => exact Option.noConfusion h
      | cons c cs =>
        simp only at h
        split_ifs at h <;> simp_all
    · exact Option.noConfusion h
    · split_ifs at h <;> simp_all
  | undef => exact Option.noConfusion h

/-- A canonical numeric input parses to itself. -/
theorem parse_num_eq (x : Nat) (hx : x ≤ IP.MAX_VALUE) : IP.parse (.num (x : Int)) = some x := by
  simp only [IP.parse]
  rw [if_neg (by simp only [IP.MAX_VALUE] at *; push_cast; omega)]
  simp

/-- Unfolding `IP.format` on a canonical value and a resolvable radix. -/
theorem format_num_eq (x : Nat) (hx : x ≤ IP.MAX_VALUE) {rad : RadInput} {r : Nat}
    (hr : IP.parseRadix rad = some r) :
    IP.format (.num (x : Int)) rad =
      some (joinDot ((IP.getParts x).map
        (fun o => (IP.formatPart (o : Int) (.num ⟨(r : Int), 0⟩)).getD []))) := by
  simp only [IP.format, parse_num_eq x hx, hr, Option.getD_some]

/-- Formatting a canonical value in any resolvable radix and parsing the
result returns the value. -/
theorem parse_format_round (x : Nat) (hx : x ≤ IP.MAX_VALUE) {rad : RadInput} {r : Nat}
    (hr : IP.parseRadix rad = some r) :
    (IP.format (.num (x : Int)) rad).bind (fun s => IP.parse (.str s)) = some x := by
  rw [format_num_eq x hx hr]
  have hb1 : x / 0x01000000 % 0x100 < 256 := Nat.mod_lt _ (by norm_num)
  have hb2 : x / 0x00010000 % 0x100 < 256 := Nat.mod_lt _ (by norm_num)
  have hb3 : x / 0x00000100 % 0x100 < 256 := Nat.mod_lt _ (by norm_num)
  have hb4 : x % 0x100 < 256 := Nat.mod_lt _ (by norm_num)
  have hrec := octets_recompose x hx
  simp only [IP.getParts, List.map, Option.some_bind, Nat.cast_ofNat]
  show IP.parseStr _ = _
  rcases parseRadix_values hr with rfl | rfl | rfl
  · simp only [Nat.cast_ofNat]
    obtain ⟨-, hp1, hv1, -, hd1, -⟩ := partRound8 _ hb1
    obtain ⟨-, hp2, hv2, -, hd2, -⟩ := partRound8 _ hb2
    obtain ⟨-, hp3, hv3, -, hd3, -⟩ := partRound8 _ hb3
    obtain ⟨-, hp4, hv4, -, hd4, -⟩ := partRound8 _ hb4
    rw [parseStr_four hb1 hb2 hb3 hb4 hp1 hp2 hp3 hp4 hv1 hv2 hv3 hv4 hd1 hd2 hd3 hd4, hrec]
  · simp only [Nat.cast_ofNat]
    obtain ⟨-, hp1, hv1, -, ha1⟩ := partRound10 _ hb1
    obtain ⟨-, hp2, hv2, -, ha2⟩ := partRound10 _ hb2
    obtain ⟨-, hp3, hv3, -, ha3⟩ := partRound10 _ hb3
    obtain ⟨-, hp4, hv4, -, ha4⟩ := partRound10 _ hb4
    rw [parseStr_four hb1 hb2 hb3 hb4 hp1 hp2 hp3 hp4 hv1 hv2 hv3 hv4
      (all_digits_no_dot ha1) (all_digits_no_dot ha2) (all_digits_no_dot ha3)
      (all_digits_no_dot ha4), hrec]
  · simp only [Nat.cast_ofNat]
    obtain ⟨-, hp1, hv1, -, hd1, -⟩ := partRound16 _ hb1
    obtain ⟨-, hp2, hv2, -, hd2, -⟩ := partRound16 _ hb2
    obtain ⟨-, hp3, hv3, -, hd3, -⟩ := partRound16 _ hb3
    obtain ⟨-, hp4, hv4, -, hd4, -⟩ := partRound16 _ hb4
    rw [parseStr_four hb1 hb2 hb3 hb4 hp1 hp2 hp3 hp4 hv1 hv2 hv3 hv4 hd1 hd2 hd3 hd4, hrec]

-- § Parse results are canonical

/-- Every non-null `IP.parse` result lies in the canonical range. -/
theorem parse_le_max {i : IPInput} {v : Nat} (h : IP.parse i = some v) : v ≤ IP.MAX_VALUE := by
  cases i with
  | num n =>
    simp only [IP.parse] at h
    split at h
    · exact Option.noConfusion h
    · obtain ⟨rfl⟩ := Option.some.injEq .. ▸ h
      simp only [IP.MAX_VALUE] at *
      omega
  | nan => exact Option.noConfusion h
  | str s =>
    simp only [IP.parse, IP.parseStr] at h
    split at h
    · exact Option.noConfusion h
    · exact Option.noConfusion h
    · split at h
      · exact Option.noConfusion h
      · obtain ⟨rfl⟩ := Option.some.injEq .. ▸ h
        simp only [IP.MAX_VALUE] at *
        omega
  | jsnull =>
    simp only [IP.parse, IP.parseStr] at h
    split at h
    · exact Option.noConfusion h
    · exact Option.noConfusion h
    · split at h
      · exact Option.noConfusion h
      · obtain ⟨rfl⟩ := Option.some.injEq .. ▸ h
        simp only [IP.MAX_VALUE] at *
        omega
  | addr w =>
    cases w with
    | none => exact Option.noConfusion h
    | some x =>
      simp only [IP.parse] at h
      split at h
      · exact Option.noConfusion h
      · obtain ⟨rfl⟩ := Option.some.injEq .. ▸ h
        simp only [IP.MAX_VALUE] at *
        omega

-- § IP.not on canonical values

/-- Complement of a canonical numeric input. -/
theorem not_num_eq (a : Nat) (ha : a ≤ IP.MAX_VALUE) :
    IP.not (.num (a : Int)) = .ok (0xffffffff - a) := by
  simp only [IP.not, parse_num_eq a ha, notFold_eq a ha]

/-- Complement of a stored IP value. -/
theorem not_addr_eq (a : Nat) (ha : a ≤ IP.MAX_VALUE) :
    IP.not (.addr (some a)) = .ok (0xffffffff - a) := by
  have hp : IP.parse (.addr (some a)) = some a := by
    simp only [IP.parse]
    rw [if_neg (by simp only [IP.MAX_VALUE] at *; push_cast; omega)]
  simp only [IP.not, hp, notFold_eq a ha]

-- § Ceiling logarithm

/-- The fuel-based search returns the least admissible exponent. -/
theorem ceilLog2Aux_le {m : Nat} : ∀ (fuel k j : Nat), k ≤ j → j < k + fuel → m ≤ 2 ^ j →
    ceilLog2Aux fuel m k ≤ j := by
  intro fuel
  induction fuel with
  | zero => intro k j hk hj _; omega
  | succ f ih =>
    intro k j hk hj hm
    simp only [ceilLog2Aux]
    split
    · exact hk
    · rename_i hlt
      have hkj : k ≠ j := by rintro rfl; exact hlt hm
      exact ih (k + 1) j (by omega) (by omega) hm

/-- Exact ceiling log of values up to 2^32 is at most 32. -/
theorem ceilLog2_le32 {m : Nat} (h : m ≤ 2 ^ 32) : ceilLog2 m ≤ 32 :=
  ceilLog2Aux_le 64 0 32 (by omega) (by omega) h

/-- The exact ceiling log at each power of two up to 2^32. -/
theorem ceilLog2_pow : ∀ k : Nat, k < 33 → ceilLog2 (2 ^ k) = k := by decide

/-- The double-precision ceiling log is bounded by 32 on [1, 2^32]. -/
theorem jsCeilLog2_le32 {m : Nat} (h : m ≤ 2 ^ 32) : jsCeilLog2 m ≤ 32 := by
  unfold jsCeilLog2
  split
  · rename_i hm
    rcases hm with rfl | rfl
    · rw [ceilLog2_pow 29 (by omega)]; omega
    · rw [ceilLog2_pow 31 (by omega)]
  · exact ceilLog2_le32 h

/-- Away from 2^29 and 2^31, the double-precision ceiling log of a power of
two is exact. -/
theorem jsCeilLog2_pow {k : Nat} (hk : k ≤ 32) (h29 : k ≠ 29) (h31 : k ≠ 31) :
    jsCeilLog2 (2 ^ k) = k := by
  unfold jsCeilLog2
  rw [if_neg]
  · exact ceilLog2_pow k (by omega)
  · rintro (h | h) <;>
      exact absurd (Nat.pow_right_injective (by norm_num) h) (by assumption)

-- § List scanning helpers

/-- takeWhile passes over a block that satisfies the predicate. -/
theorem takeWhile_append_all {p : Char → Bool} {a : List Char} (b : List Char)
    (h : a.all p = true) : (a ++ b).takeWhile p = a ++ b.takeWhile p := by
  induction a with
  | nil => simp
  | cons c l ih =>
    simp only [List.all_cons, Bool.and_eq_true] at h
    simp [List.takeWhile, h.1, ih h.2]

/-- dropWhile passes over a block that satisfies the predicate. -/
theorem dropWhile_append_all {p : Char → Bool} {a : List Char} (b : List Char)
    (h : a.all p = true) : (a ++ b).dropWhile p = b.dropWhile p := by
  induction a with
  | nil => simp
  | cons c l ih =>
    simp only [List.all_cons, Bool.and_eq_true] at h
    simp [List.dropWhile, h.1, ih h.2]

/-- takeWhile stops inside a block that contains a failing element. -/
theorem takeWhile_append_stop {p : Char → Bool} {a : List Char} (b : List Char)
    (h : ¬ a.all p = true) : (a ++ b).takeWhile p = a.takeWhile p := by
  induction a with
  | nil => simp at h
  | cons c l ih =>
    simp only [List.all_cons, Bool.and_eq_true] at h
    by_cases hc : p c
    · simp only [List.cons_append, List.takeWhile_cons, hc]
      rw [ih (by tauto)]
    · simp [List.takeWhile, hc]

/-- An element failing the predicate survives dropWhile. -/
theorem mem_dropWhile_of_mem {p : Char → Bool} {c : Char} {s : List Char}
    (hm : c ∈ s) (hc : p c = false) : c ∈ s.dropWhile p := by
  induction s with
  | nil => cases hm
  | cons a l ih =>
    by_cases ha : p a
    · rcases List.mem_cons.mp hm with rfl | h
      · rw [ha] at hc; cases hc
      · rw [List.dropWhile_cons_of_pos ha]; exact ih h
    · rw [List.dropWhile_cons_of_neg ha]; exact hm

/-- A non-whitespace character survives trimming. -/
theorem mem_trimWS {c : Char} {s : List Char} (hm : c ∈ s) (hc : isWSChar c = false) :
    c ∈ trimWS s := by
  unfold trimWS
  rw [List.mem_reverse]
  exact mem_dropWhile_of_mem (List.mem_reverse.mpr (mem_dropWhile_of_mem hm hc)) hc

/-- Splitting a string that contains `c` at the first occurrence of `c`. -/
theorem dropWhile_ne_first {c : Char} {s : List Char} (hm : c ∈ s) :
    ∃ t, s.dropWhile (fun x => x ≠ c) = c :: t ∧ t.length < s.length := by
  induction s with
  | nil => cases hm
  | cons a l ih =>
    by_cases ha : a = c
    · subst ha
      exact ⟨l, by simp [List.dropWhile_cons], by simp⟩
    · have hm' : c ∈ l := by
        rcases List.mem_cons.mp hm with rfl | h
        · exact absurd rfl ha
        · exact h
      obtain ⟨t, ht, hl⟩ := ih hm'
      refine ⟨t, ?_, by simp; omega⟩
      rw [List.dropWhile_cons_of_pos (by simp [ha])]
      exact ht

-- § Strings that coerce to numbers contain no slash

/-- Slash is not a digit of any base. -/
theorem digitValue_slash : digitValue ('/') = none := by decide

/-- A successful exponent part contains no slash. -/
theorem expValue_no_slash {r : List Char} {x : Int} (h : expValue r = some x) : ('/') ∉ r := by
  unfold expValue at h
  split at h
  · simp
  · rename_i e r2
    split at h
    · rename_i he
      have he' : e ≠ '/' := by rintro rfl; rcases he with h' | h' <;> exact absurd h' (by decide)
      intro hm
      split at h
      · split at h
        · rename_i r3 hcond
          rcases List.mem_cons.mp hm with rfl | hm2
          · exact he' rfl
          rcases List.mem_cons.mp hm2 with h' | hm3
          · exact absurd h' (by decide)
          · exact absurd (List.all_eq_true.mp hcond.2 _ hm3) (by decide)
        · exact Option.noConfusion h
      · split at h
        · rename_i r3 hcond
          rcases List.mem_cons.mp hm with rfl | hm2
          · exact he' rfl
          rcases List.mem_cons.mp hm2 with h' | hm3
          · exact absurd h' (by decide)
          · exact absurd (List.all_eq_true.mp hcond.2 _ hm3) (by decide)
        · exact Option.noConfusion h
      · split at h
        · rename_i hcond
          rcases List.mem_cons.mp hm with rfl | hm2
          · exact he' rfl
          · exact absurd (List.all_eq_true.mp hcond.2 _ hm2) (by decide)
        · exact Option.noConfusion h
    · exact Option.noConfusion h

/-- A successful decimal literal contains no slash. -/
theorem decValue_no_slash {r : List Char} {d : JSDec} (h : decValue r = some d) : ('/') ∉ r := by
  intro hm
  have hr := List.takeWhile_append_dropWhile (p := isDecDigit) (l := r)
  unfold decValue at h
  split at h
  · rename_i r2 heq
    split at h
    · exact Option.noConfusion h
    · obtain ⟨x, hx, -⟩ := Option.map_eq_some'.mp h
      rcases List.mem_append.mp (hr ▸ hm) with h1 | h2
      · exact absurd (List.mem_takeWhile_imp h1) (by decide)
      · rw [heq] at h2
        rcases List.mem_cons.mp h2 with h' | h3
        · exact absurd h' (by decide)
        · have hr2 := List.takeWhile_append_dropWhile (p := isDecDigit) (l := r2)
          rcases List.mem_append.mp (hr2 ▸ h3) with h4 | h5
          · exact absurd (List.mem_takeWhile_imp h4) (by decide)
          · exact expValue_no_slash hx h5
  · split at h
    · exact Option.noConfusion h
    · obtain ⟨x, hx, -⟩ := Option.map_eq_some'.mp h
      rcases List.mem_append.mp (hr ▸ hm) with h1 | h2
      · exact absurd (List.mem_takeWhile_imp h1) (by decide)
      · exact expValue_no_slash hx h2

/-- A non-NaN unsigned decimal tail contains no slash. -/
theorem unsignedDec_no_slash {r : List Char} {neg : Bool} (h : unsignedDec r neg ≠ .nan) :
    ('/') ∉ r := by
  unfold unsignedDec at h
  split at h
  · rename_i hinf
    rw [hinf]
    decide
  · split at h
    · rename_i d heq
      exact decValue_no_slash heq
    · exact absurd rfl h

/-- A non-NaN signed decimal contains no slash. -/
theorem signedDec_no_slash {t : List Char} (h : signedDec t ≠ .nan) : ('/') ∉ t := by
  cases t with
  | nil => simp
  | cons c r =>
    simp only [signedDec] at h
    intro hm
    rcases List.mem_cons.mp hm with rfl | hm2
    · rw [if_neg (by decide), if_neg (by decide)] at h
      exact unsignedDec_no_slash h (by simp)
    · split_ifs at h with hp hq
      · exact unsignedDec_no_slash h hm2
      · exact unsignedDec_no_slash h hm2
      · exact unsignedDec_no_slash h (List.mem_cons_of_mem _ hm2)

/-- A non-NaN radix literal tail contains no slash. -/
theorem radixTail_no_slash {b : Nat} {r : List Char} (h : radixTail b r ≠ .nan) : ('/') ∉ r := by
  unfold radixTail at h
  split at h
  · rename_i hcond
    intro hm
    have hd := List.all_eq_true.mp hcond.2 _ hm
    simp [isRadixDigit, digitValue_slash] at hd
  · exact absurd rfl h

/-- A string that coerces to a number (or infinity) contains no slash. -/
theorem numLitVal_no_slash {t : List Char} (h : numLitVal t ≠ .nan) : ('/') ∉ t := by
  cases t with
  | nil => simp
  | cons c r =>
    simp only [numLitVal] at h
    intro hm
    split_ifs at h with h0
    · subst h0
      cases r with
      | nil => exact signedDec_no_slash h hm
      | cons c2 r2 =>
        simp only at h
        split_ifs at h with hx ho hb
        · rcases List.mem_cons.mp hm with h' | hm2
          · exact absurd h' (by decide)
          rcases List.mem_cons.mp hm2 with rfl | hm3
          · rcases hx with h' | h' <;> exact absurd h' (by decide)
          · exact radixTail_no_slash h hm3
        · rcases List.mem_cons.mp hm with h' | hm2
          · exact absurd h' (by decide)
          rcases List.mem_cons.mp hm2 with rfl | hm3
          · rcases ho with h' | h' <;> exact absurd h' (by decide)
          · exact radixTail_no_slash h hm3
        · rcases List.mem_cons.mp hm with h' | hm2
          · exact absurd h' (by decide)
          rcases List.mem_cons.mp hm2 with rfl | hm3
          · rcases hb with h' | h' <;> exact absurd h' (by decide)
          · exact radixTail_no_slash h hm3
        · exact signedDec_no_slash h hm
    · exact signedDec_no_slash h hm

/-- A string containing a slash always coerces to NaN. -/
theorem strToNum_slash_nan {s : List Char} (hm : ('/') ∈ s) : strToNum s = .nan := by
  by_contra h
  exact numLitVal_no_slash h (mem_trimWS hm (by decide))

-- § A dotted-decimal address string coerces to NaN

/-- Digits are not whitespace. -/
theorem isDecDigit_not_ws {c : Char} (h : isDecDigit c = true) : isWSChar c = false := by
  simp only [isDecDigit, Bool.and_eq_true, decide_eq_true_eq] at h
  simp only [isWSChar]
  simp only [Bool.or_eq_false_iff, decide_eq_false_iff_not]
  omega

/-- Trimming does not change a string of digits and dots. -/
theorem trimWS_digits_dots {s : List Char}
    (h : ∀ c ∈ s, isDecDigit c = true ∨ c = '.') : trimWS s = s := by
  have hws : ∀ c ∈ s, isWSChar c = false := by
    intro c hc
    rcases h c hc with hd | rfl
    · exact isDecDigit_not_ws hd
    · decide
  have h1 : s.dropWhile isWSChar = s := by
    cases s with
    | nil => rfl
    | cons a l => exact List.dropWhile_cons_of_neg (by simp [hws a (by simp)])
  have h2 : s.reverse.dropWhile isWSChar = s.reverse := by
    cases hrev : s.reverse with
    | nil => rfl
    | cons a l =>
      refine List.dropWhile_cons_of_neg ?_
      have : a ∈ s.reverse := by rw [hrev]; simp
      simp [hws a (List.mem_reverse.mp this)]
  unfold trimWS
  rw [h1, h2, List.reverse_reverse]

/-- Membership in a four-part dotted join. -/
theorem mem_joinDot_four {c : Char} {s1 s2 s3 s4 : List Char}
    (hm : c ∈ joinDot [s1, s2, s3, s4]) :
    c ∈ s1 ∨ c ∈ s2 ∨ c ∈ s3 ∨ c ∈ s4 ∨ c = '.' := by
  have : joinDot [s1, s2, s3, s4] = s1 ++ '.' :: (s2 ++ '.' :: (s3 ++ '.' :: s4)) := rfl
  rw [this] at hm
  simp only [List.mem_append, List.mem_cons] at hm
  tauto

/-- Joining four nonempty digit strings with dots yields a string that
`ToNumber` maps to NaN (two dots cannot appear in a numeric literal). -/
theorem strToNum_dotted4_nan {s1 s2 s3 s4 : List Char}
    (h1 : s1.all isDecDigit = true) (h2 : s2.all isDecDigit = true)
    (h3 : s3.all isDecDigit = true) (h4 : s4.all isDecDigit = true)
    (hn1 : s1 ≠ []) (hn2 : s2 ≠ []) :
    strToNum (joinDot [s1, s2, s3, s4]) = .nan := by
  have hjoin : joinDot [s1, s2, s3, s4] = s1 ++ '.' :: (s2 ++ '.' :: (s3 ++ '.' :: s4)) := rfl
  have hmem : ∀ c ∈ joinDot [s1, s2, s3, s4], isDecDigit c = true ∨ c = '.' := by
    intro c hc
    rcases mem_joinDot_four hc with h | h | h | h | h
    · exact Or.inl (List.all_eq_true.mp h1 _ h)
    · exact Or.inl (List.all_eq_true.mp h2 _ h)
    · exact Or.inl (List.all_eq_true.mp h3 _ h)
    · exact Or.inl (List.all_eq_true.mp h4 _ h)
    · exact Or.inr h
  unfold strToNum
  rw [trimWS_digits_dots hmem, hjoin]
  -- the decimal-literal scan: integer digits s1, a dot, fraction digits s2,
  -- then a second dot where an exponent would have to be
  have hdec : decValue (s1 ++ '.' :: (s2 ++ '.' :: (s3 ++ '.' :: s4))) = none := by
    unfold decValue
    rw [dropWhile_append_all _ h1, List.dropWhile_cons_of_neg (by decide)]
    simp only
    rw [takeWhile_append_all _ h2, List.takeWhile_cons_of_neg (by decide),
      dropWhile_append_all _ h2, List.dropWhile_cons_of_neg (by decide)]
    rw [if_neg (by simp [hn2])]
    simp [expValue]
  have hinf : s1 ++ '.' :: (s2 ++ '.' :: (s3 ++ '.' :: s4)) ≠ infinityChars := by
    intro he
    have : ('.') ∈ infinityChars := by
      rw [← he, List.mem_append]
      exact Or.inr (by simp)
    exact absurd this (by decide)
  have hsigned : signedDec (s1 ++ '.' :: (s2 ++ '.' :: (s3 ++ '.' :: s4))) = .nan := by
    obtain ⟨c1, t1, rfl⟩ : ∃ c1 t1, s1 = c1 :: t1 := by
      cases s1 with
      | nil => exact absurd rfl hn1
      | cons a l => exact ⟨a, l, rfl⟩
    have hc1 : isDecDigit c1 = true := by
      simp only [List.all_cons, Bool.and_eq_true] at h1
      exact h1.1
    have hc1n : 48 ≤ c1.toNat ∧ c1.toNat ≤ 57 := by
      simp only [isDecDigit, Bool.and_eq_true, decide_eq_true_eq] at hc1
      exact hc1
    have hplus : c1 ≠ '+' := fun he => by rw [he] at hc1n; exact absurd hc1n (by decide)
    have hminus : c1 ≠ '-' := fun he => by rw [he] at hc1n; exact absurd hc1n (by decide)
    show signedDec (c1 :: (t1 ++ '.' :: (s2 ++ '.' :: (s3 ++ '.' :: s4)))) = .nan
    simp only [List.cons_append] at hinf hdec
    simp only [signedDec, hplus, hminus, if_false]
    unfold unsignedDec
    rw [if_neg hinf, hdec]
  -- dispatch the leading-zero analysis of `numLitVal`
  obtain ⟨c1, t1, rfl⟩ : ∃ c1 t1, s1 = c1 :: t1 := by
    cases s1 with
    | nil => exact absurd rfl hn1
    | cons a l => exact ⟨a, l, rfl⟩
  show numLitVal (c1 :: (t1 ++ '.' :: (s2 ++ '.' :: (s3 ++ '.' :: s4)))) = .nan
  simp only [numLitVal]
  split
  · -- c1 = '0': the next character is a digit or the dot, never x/o/b
    have hnext : ∀ c2 r2, t1 ++ '.' :: (s2 ++ '.' :: (s3 ++ '.' :: s4)) = c2 :: r2 →
        (isDecDigit c2 = true ∨ c2 = '.') := by
      intro c2 r2 he
      cases t1 with
      | nil => exact Or.inr (by simpa using (congrArg (fun l => l.headD ' ') he).symm)
      | cons a l =>
        have ha : isDecDigit a = true := by
          simp only [List.all_cons, Bool.and_eq_true] at h1
          exact h1.2.1
        have hac : a = c2 := by simpa using congrArg (fun l => l.headD ' ') he
        exact Or.inl (hac ▸ ha)
    split
    · rename_i c2 r2 he
      have hc2 := hnext c2 r2 he
      have hc2n : (48 ≤ c2.toNat ∧ c2.toNat ≤ 57) ∨ c2.toNat = 46 := by
        rcases hc2 with hd | rfl
        · simp only [isDecDigit, Bool.and_eq_true, decide_eq_true_eq] at hd
          exact Or.inl hd
        · exact Or.inr rfl
      rw [if_neg, if_neg, if_neg]
      · exact hsigned
      · rintro (rfl | rfl) <;> rcases hc2n with h' | h' <;> revert h' <;> decide
      · rintro (rfl | rfl) <;> rcases hc2n with h' | h' <;> revert h' <;> decide
      · rintro (rfl | rfl) <;> rcases hc2n with h' | h' <;> revert h' <;> decide
    · exact hsigned
  · exact hsigned

-- § Mask.parse recursion on slashes

/-- Decomposition of a string at its first slash. -/
theorem afterFirstSlash_spec {s : List Char} (h : ('/') ∈ s) :
    s = s.takeWhile (fun c => c ≠ '/') ++ '/' :: afterFirstSlash s ∧
      (afterFirstSlash s).length < s.length := by
  obtain ⟨t, ht, hl⟩ := dropWhile_ne_first h
  have hafter : afterFirstSlash s = t := by
    unfold afterFirstSlash
    rw [ht]
    rfl
  constructor
  · rw [hafter]
    conv_lhs => rw [← List.takeWhile_append_dropWhile (p := fun c => c ≠ '/') (l := s)]
    rw [ht]
  · rw [hafter]
    exact hl

/-- The fuel argument of `maskParseStrF` is irrelevant once it exceeds the
string length. -/
theorem maskParseStrF_congr : ∀ (f1 f2 : Nat) (s : List Char),
    s.length < f1 → s.length < f2 → maskParseStrF f1 s = maskParseStrF f2 s := by
  intro f1
  induction f1 with
  | zero => intro f2 s h1 _; omega
  | succ fa ih =>
    intro f2 s h1 h2
    cases f2 with
    | zero => omega
    | succ fb =>
      simp only [maskParseStrF]
      cases hnp : maskNumericPass s with
      | some j => rfl
      | none =>
        by_cases hs : ('/') ∈ s
        · simp only [if_pos hs]
          obtain ⟨-, hlen⟩ := afterFirstSlash_spec hs
          exact ih fb (afterFirstSlash s) (by omega) (by omega)
        · simp only [if_neg hs]

/-- A string containing a slash parses as its part after the first slash. -/
theorem maskParse_slash {s : List Char} (h : ('/') ∈ s) :
    Mask.parse (.str s) = Mask.parse (.str (afterFirstSlash s)) := by
  have hnp : maskNumericPass s = none := by
    simp [maskNumericPass, strToNum_slash_nan h]
  obtain ⟨-, hlen⟩ := afterFirstSlash_spec h
  show Mask.parseStr s = Mask.parseStr (afterFirstSlash s)
  unfold Mask.parseStr
  rw [show s.length + 1 = s.length + 1 from rfl]
  simp only [maskParseStrF, hnp, if_pos h]
  exact maskParseStrF_congr s.length ((afterFirstSlash s).length + 1) (afterFirstSlash s)
    (by omega) (by omega)

/-- A slash-free string is its own last-slash suffix. -/
theorem afterLastSlash_of_no_slash {s : List Char} (h : ('/') ∉ s) : afterLastSlash s = s := by
  unfold afterLastSlash
  rw [List.takeWhile_eq_self_iff.mpr, List.reverse_reverse]
  intro x hx
  simp only [decide_eq_true_eq]
  rintro rfl
  exact h (List.mem_reverse.mp hx)

/-- The last-slash suffix ignores everything before an earlier slash. -/
theorem afterLastSlash_append_mem {a t : List Char} (h : ('/') ∈ t) :
    afterLastSlash (a ++ '/' :: t) = afterLastSlash t := by
  unfold afterLastSlash
  rw [List.reverse_append, List.reverse_cons, List.append_assoc]
  rw [takeWhile_append_stop _ ?stop]
  case stop =>
    simp only [List.all_eq_true, decide_eq_true_eq, not_forall]
    exact ⟨('/'), List.mem_reverse.mpr h, by simp⟩

/-- When the tail after a slash is slash-free, it is the last-slash suffix. -/
theorem afterLastSlash_append_no {a t : List Char} (h : ('/') ∉ t) :
    afterLastSlash (a ++ '/' :: t) = t := by
  unfold afterLastSlash
  rw [List.reverse_append, List.reverse_cons, List.append_assoc]
  rw [takeWhile_append_all _ ?all]
  case all =>
    simp only [List.all_eq_true, decide_eq_true_eq]
    intro x hx
    rintro rfl
    exact h (List.mem_reverse.mp hx)
  rw [show (['/'] ++ a.reverse : List Char) = '/' :: a.reverse from rfl,
    List.takeWhile_cons_of_neg (by simp), List.append_nil, List.reverse_reverse]

/-- A string containing a slash parses as the substring after its last slash. -/
theorem maskParse_after_last {s : List Char} (h : ('/') ∈ s) :
    Mask.parse (.str s) = Mask.parse (.str (afterLastSlash s)) := by
  suffices H : ∀ n (s : List Char), s.length ≤ n → ('/') ∈ s →
      Mask.parse (.str s) = Mask.parse (.str (afterLastSlash s)) from H s.length s le_rfl h
  intro n
  induction n with
  | zero =>
    intro s hl hm
    cases s with
    | nil => cases hm
    | cons a l => simp at hl
  | succ k ih =>
    intro s hl hm
    rw [maskParse_slash hm]
    obtain ⟨hsplit, hlen⟩ := afterFirstSlash_spec hm
    by_cases hm2 : ('/') ∈ afterFirstSlash s
    · rw [ih (afterFirstSlash s) (by omega) hm2]
      rw [show afterLastSlash s = afterLastSlash (afterFirstSlash s) from by
        conv_lhs => rw [hsplit]
        exact afterLastSlash_append_mem hm2]
    · rw [show afterLastSlash s = afterFirstSlash s from by
        conv_lhs => rw [hsplit]
        exact afterLastSlash_append_no hm2]

/-- The dotted-mask branch of `Mask.parse` on a parseable address string. -/
theorem maskParse_dotted {s : List Char} {v : Nat} (hn : strToNum s = .nan)
    (hs : ('/') ∉ s) (hv : IP.parse (.str s) = some v) :
    Mask.parse (.str s) =
      .ok (some (.val ⟨(Mask.MAX_VALUE : Int) - (jsCeilLog2 (0xffffffff - v + 1) : Int), 0⟩)) := by
  have hnp : maskNumericPass s = none := by simp [maskNumericPass, hn]
  have hnot : IP.not (.str s) = .ok (0xffffffff - v) := by
    simp only [IP.not, hv]
    rw [notFold_eq v (parse_le_max hv)]
  show Mask.parseStr s = _
  unfold Mask.parseStr
  simp only [maskParseStrF, hnp, if_neg hs, hnot]

-- § Mask.format on canonical bit-lengths

/-- A numeric input no larger than 32 passes through `Mask.parse` unchanged. -/
theorem maskParse_num_le {d : JSDec} (h : d.leInt (Mask.MAX_VALUE : Int) = true) :
    Mask.parse (.num d) = .ok (some (.val d)) := by
  simp [Mask.parse, h]

/-- Unfolding `IP.format` with the radix argument omitted (default 10). -/
theorem format_addr_undef (v : Nat) (hv : v ≤ IP.MAX_VALUE) :
    IP.format (.addr (some v)) .undef =
      some (joinDot ((IP.getParts v).map
        (fun o => (IP.formatPart (o : Int) (.num ⟨(10 : Int), 0⟩)).getD []))) := by
  have hp : IP.parse (.addr (some v)) = some v := by
    simp only [IP.parse]
    rw [if_neg (by simp only [IP.MAX_VALUE] at *; push_cast; omega)]
  simp only [IP.format, hp]
  norm_num [IP.parseRadix]

/-- Parsing the default-radix dotted form of a canonical value returns it. -/
theorem parseStr_fmt10 (v : Nat) (hv : v ≤ IP.MAX_VALUE) :
    IP.parseStr (joinDot ((IP.getParts v).map
      (fun o => (IP.formatPart (o : Int) (.num ⟨(10 : Int), 0⟩)).getD []))) = some v := by
  have hb1 : v / 0x01000000 % 0x100 < 256 := Nat.mod_lt _ (by norm_num)
  have hb2 : v / 0x00010000 % 0x100 < 256 := Nat.mod_lt _ (by norm_num)
  have hb3 : v / 0x00000100 % 0x100 < 256 := Nat.mod_lt _ (by norm_num)
  have hb4 : v % 0x100 < 256 := Nat.mod_lt _ (by norm_num)
  obtain ⟨-, hp1, hv1, -, ha1⟩ := partRound10 _ hb1
  obtain ⟨-, hp2, hv2, -, ha2⟩ := partRound10 _ hb2
  obtain ⟨-, hp3, hv3, -, ha3⟩ := partRound10 _ hb3
  obtain ⟨-, hp4, hv4, -, ha4⟩ := partRound10 _ hb4
  simp only [IP.getParts, List.map]
  rw [parseStr_four hb1 hb2 hb3 hb4 hp1 hp2 hp3 hp4 hv1 hv2 hv3 hv4
    (all_digits_no_dot ha1) (all_digits_no_dot ha2) (all_digits_no_dot ha3)
    (all_digits_no_dot ha4), octets_recompose v hv]

/-- The default-radix dotted form of a canonical value coerces to NaN. -/
theorem fmt10_nan (v : Nat) :
    strToNum (joinDot ((IP.getParts v).map
      (fun o => (IP.formatPart (o : Int) (.num ⟨(10 : Int), 0⟩)).getD []))) = .nan := by
  have hb1 : v / 0x01000000 % 0x100 < 256 := Nat.mod_lt _ (by norm_num)
  have hb2 : v / 0x00010000 % 0x100 < 256 := Nat.mod_lt _ (by norm_num)
  have hb3 : v / 0x00000100 % 0x100 < 256 := Nat.mod_lt _ (by norm_num)
  have hb4 : v % 0x100 < 256 := Nat.mod_lt _ (by norm_num)
  obtain ⟨-, -, -, hn1, ha1⟩ := partRound10 _ hb1
  obtain ⟨-, -, -, hn2, ha2⟩ := partRound10 _ hb2
  obtain ⟨-, -, -, -, ha3⟩ := partRound10 _ hb3
  obtain ⟨-, -, -, -, ha4⟩ := partRound10 _ hb4
  simp only [IP.getParts, List.map]
  exact strToNum_dotted4_nan ha1 ha2 ha3 ha4 hn1 hn2

/-- The default-radix dotted form of a canonical value contains no slash. -/
theorem fmt10_no_slash (v : Nat) :
    ('/') ∉ joinDot ((IP.getParts v).map
      (fun o => (IP.formatPart (o : Int) (.num ⟨(10 : Int), 0⟩)).getD [])) := by
  have hb1 : v / 0x01000000 % 0x100 < 256 := Nat.mod_lt _ (by norm_num)
  have hb2 : v / 0x00010000 % 0x100 < 256 := Nat.mod_lt _ (by norm_num)
  have hb3 : v / 0x00000100 % 0x100 < 256 := Nat.mod_lt _ (by norm_num)
  have hb4 : v % 0x100 < 256 := Nat.mod_lt _ (by norm_num)
  obtain ⟨-, -, -, -, ha1⟩ := partRound10 _ hb1
  obtain ⟨-, -, -, -, ha2⟩ := partRound10 _ hb2
  obtain ⟨-, -, -, -, ha3⟩ := partRound10 _ hb3
  obtain ⟨-, -, -, -, ha4⟩ := partRound10 _ hb4
  simp only [IP.getParts, List.map]
  intro hm
  rcases mem_joinDot_four hm with h | h | h | h | h
  · exact all_digits_no_slash ha1 h
  · exact all_digits_no_slash ha2 h
  · exact all_digits_no_slash ha3 h
  · exact all_digits_no_slash ha4 h
  · exact absurd h (by decide)

/-- Unfolding `Mask.format` on an integer bit-length in [0, 32]. -/
theorem maskFormat_nat (n : Nat) (hn : n ≤ 32) :
    Mask.format (.num ⟨(n : Int), 0⟩) =
      .ok (IP.format (.addr (some (2 ^ 32 - 2 ^ (32 - n)))) .undef) := by
  have hle : (JSDec.mk (n : Int) 0).leInt (Mask.MAX_VALUE : Int) = true := by
    simp only [JSDec.leInt, Mask.MAX_VALUE]
    norm_num
    omega
  unfold Mask.format
  rw [maskParse_num_le hle]
  simp only
  rw [if_pos trivial, if_pos (by
    refine ⟨by positivity, ?_⟩
    simp only [Mask.MAX_VALUE]
    push_cast
    omega)]
  have htn : ((n : Int)).toNat = n := Int.toNat_natCast n
  rw [htn]
  have hpow : (2 : Nat) ^ (Mask.MAX_VALUE - n) ≤ 2 ^ 32 :=
    Nat.pow_le_pow_right (by norm_num) (by simp only [Mask.MAX_VALUE]; omega)
  have hv : (2 : Nat) ^ (Mask.MAX_VALUE - n) - 1 ≤ IP.MAX_VALUE := by
    simp only [IP.MAX_VALUE]
    omega
  rw [not_num_eq _ hv]
  simp only
  have harith : 0xffffffff - (2 ^ (Mask.MAX_VALUE - n) - 1) = 2 ^ 32 - 2 ^ (32 - n) := by
    have hpos : 1 ≤ (2 : Nat) ^ (Mask.MAX_VALUE - n) := Nat.one_le_two_pow
    simp only [Mask.MAX_VALUE] at *
    omega
  rw [harith]

/-- Mask round-trip away from the two bit-lengths hit by the floating-point
slip: formatting bit-length `n` and re-parsing recovers `n`. -/
theorem maskRound_nat (n : Nat) (hn : n ≤ 32) (hne1 : n ≠ 1) (hne3 : n ≠ 3) :
    ∃ s, Mask.format (.num ⟨(n : Int), 0⟩) = .ok (some s) ∧
      Mask.parse (.str s) = .ok (some (.val ⟨(n : Int), 0⟩)) := by
  have hpow : (2 : Nat) ^ (32 - n) ≤ 2 ^ 32 := Nat.pow_le_pow_right (by norm_num) (by omega)
  have hpos : 1 ≤ (2 : Nat) ^ (32 - n) := Nat.one_le_two_pow
  have hv : 2 ^ 32 - 2 ^ (32 - n) ≤ IP.MAX_VALUE := by
    simp only [IP.MAX_VALUE]
    omega
  refine ⟨_, by rw [maskFormat_nat n hn, format_addr_undef _ hv], ?_⟩
  rw [maskParse_dotted (fmt10_nan _) (fmt10_no_slash _)
    (by show IP.parseStr _ = _; exact parseStr_fmt10 _ hv)]
  have harith : 0xffffffff - (2 ^ 32 - 2 ^ (32 - n)) + 1 = 2 ^ (32 - n) := by omega
  rw [harith, jsCeilLog2_pow (by omega) (by omega) (by omega)]
  simp only [Mask.MAX_VALUE, Except.ok.injEq, Option.some.injEq, JSNum.val.injEq,
    JSDec.mk.injEq, and_true]
  push_cast
  omega

-- § addParts edge shapes

/-- Five or more parts fall into the default switch arm. -/
theorem addParts_ge5 {ps : List (List Char)} (h : 5 ≤ ps.length) :
    IP.addParts (some ps) = .null := by
  rcases ps with _ | ⟨a, _ | ⟨b, _ | ⟨c, _ | ⟨d, _ | ⟨e, tl⟩⟩⟩⟩⟩
  · simp at h
  · simp at h
  · simp at h
  · simp at h
  · simp at h
  · rfl

/-- A string splitting into five or more parts never parses. -/
theorem parse_ge5 {s : List Char} (h : 5 ≤ (splitOnDot s).length) :
    IP.parse (.str s) = none := by
  show IP.parseStr s = none
  unfold IP.parseStr IP.splitParts
  by_cases hall : (splitOnDot s).all IP.partIsValid = true
  · rw [if_pos hall, addParts_ge5 h]
  · rw [if_neg hall]
    rfl

/-- A NaN part poisons the whole sum for one to four parts, and five or more
parts are rejected outright, so `IP.parse` fails either way. -/
theorem parse_with_nan_part {s : List Char} {ps : List (List Char)}
    (hsplit : IP.splitParts s = some ps) {p : List Char} (hp : p ∈ ps)
    (hnan : IP.parsePart p = .pnan) : IP.parse (.str s) = none := by
  show IP.parseStr s = none
  unfold IP.parseStr
  rw [hsplit]
  have hterm : ∀ w : Int, IP.partTerm p w = none := by
    intro w
    simp [IP.partTerm, hnan]
  rcases ps with _ | ⟨a, _ | ⟨b, _ | ⟨c, _ | ⟨d, _ | ⟨e, tl⟩⟩⟩⟩⟩
  · cases hp
  · rcases List.mem_singleton.mp hp with rfl
    rw [show IP.addParts (some [p]) = .nan by
      simp only [IP.addParts, jsSum, List.foldl, hterm]]
  · rcases List.mem_cons.mp hp with rfl | hp2
    · rw [show IP.addParts (some [p, b]) = .nan by
        simp only [IP.addParts, jsSum, List.foldl, hterm]]
    rcases List.mem_singleton.mp hp2 with rfl
    rw [show IP.addParts (some [a, p]) = .nan by
      simp only [IP.addParts, jsSum, List.foldl, hterm]
      cases IP.partTerm a 0x01000000 <;> rfl]
  · rcases List.mem_cons.mp hp with rfl | hp2
    · rw [show IP.addParts (some [p, b, c]) = .nan by
        simp only [IP.addParts, jsSum, List.foldl, hterm]]
    rcases List.mem_cons.mp hp2 with rfl | hp3
    · rw [show IP.addParts (some [a, p, c]) = .nan by
        simp only [IP.addParts, jsSum, List.foldl, hterm]
        cases IP.partTerm a 0x01000000 <;> rfl]
    rcases List.mem_singleton.mp hp3 with rfl
    rw [show IP.addParts (some [a, b, p]) = .nan by
      simp only [IP.addParts, jsSum, List.foldl, hterm]
      cases IP.partTerm a 0x01000000 <;> cases IP.partTerm b 0x00010000 <;> rfl]
  · rcases List.mem_cons.mp hp with rfl | hp2
    · rw [show IP.addParts (some [p, b, c, d]) = .nan by
        simp only [IP.addParts, jsSum, List.foldl, hterm]]
    rcases List.mem_cons.mp hp2 with rfl | hp3
    · rw [show IP.addParts (some [a, p, c, d]) = .nan by
        simp only [IP.addParts, jsSum, List.foldl, hterm]
        cases IP.partTerm a 0x01000000 <;> rfl]
    rcases List.mem_cons.mp hp3 with rfl | hp4
    · rw [show IP.addParts (some [a, b, p, d]) = .nan by
        simp only [IP.addParts, jsSum, List.foldl, hterm]
        cases IP.partTerm a 0x01000000 <;> cases IP.partTerm b 0x00010000 <;> rfl]
    rcases List.mem_singleton.mp hp4 with rfl
    rw [show IP.addParts (some [a, b, c, p]) = .nan by
      simp only [IP.addParts, jsSum, List.foldl, hterm]
      cases IP.partTerm a 0x01000000 <;> cases IP.partTerm b 0x00010000 <;>
        cases IP.partTerm c 0x00000100 <;> rfl]
  · rw [addParts_ge5 (by simp)]

-- § Claim theorems

/-- Claim C1: for every dotted string whose parts all parse to (necessarily
non-negative) values, `IP.addParts` produces the part-count-dependent weighted
sum — 1 part `A` gives `A`; 2 parts give `A*0x1000000 + B`; 3 parts give
`A*0x1000000 + B*0x10000 + C`; 4 parts give
`A*0x1000000 + B*0x10000 + C*0x100 + D`; zero parts give 0 — and any input
with five or more parts yields the invalid result, both from `IP.addParts`
and from `IP.parse` on the full string.  (`IP.parsePart p = .pnum v` holds
exactly when the part parses to the non-negative value `v`.) -/
theorem C1_addParts_weighting :
    IP.addParts (some []) = .num 0 ∧
    (∀ (a : List Char) (va : Int), IP.parsePart a = .pnum va →
      IP.addParts (some [a]) = .num va) ∧
    (∀ (a b : List Char) (va vb : Int), IP.parsePart a = .pnum va →
      IP.parsePart b = .pnum vb →
      IP.addParts (some [a, b]) = .num (va * 0x01000000 + vb)) ∧
    (∀ (a b c : List Char) (va vb vc : Int), IP.parsePart a = .pnum va →
      IP.parsePart b = .pnum vb → IP.parsePart c = .pnum vc →
      IP.addParts (some [a, b, c]) = .num (va * 0x01000000 + vb * 0x00010000 + vc)) ∧
    (∀ (a b c d : List Char) (va vb vc vd : Int), IP.parsePart a = .pnum va →
      IP.parsePart b = .pnum vb → IP.parsePart c = .pnum vc → IP.parsePart d = .pnum vd →
      IP.addParts (some [a, b, c, d]) =
        .num (va * 0x01000000 + vb * 0x00010000 + vc * 0x00000100 + vd)) ∧
    (∀ ps : List (List Char), 5 ≤ ps.length → IP.addParts (some ps) = .null) ∧
    (∀ s : List Char, 5 ≤ (splitOnDot s).length → IP.parse (.str s) = none) := by
  refine ⟨rfl, ?_, ?_, ?_, ?_, fun ps h => addParts_ge5 h, fun s h => parse_ge5 h⟩
  · intro a va ha
    simp only [IP.addParts, jsSum, IP.partTerm, ha, List.foldl, AddResult.num.injEq]
    omega
  · intro a b va vb ha hb
    simp only [IP.addParts, jsSum, IP.partTerm, ha, hb, List.foldl, AddResult.num.injEq]
    omega
  · intro a b c va vb vc ha hb hc
    simp only [IP.addParts, jsSum, IP.partTerm, ha, hb, hc, List.foldl, AddResult.num.injEq]
    omega
  · intro a b c d va vb vc vd ha hb hc hd
    simp only [IP.addParts, jsSum, IP.partTerm, ha, hb, hc, hd, List.foldl, AddResult.num.injEq]
    omega

/-- Witness for C1 at the concrete address 74.125.226.4. -/
theorem C1_witness :
    IP.addParts (some [("74").toList, ("125").toList, ("226").toList, ("4").toList]) =
      .num 1249763844 := by
  rw [C1_addParts_weighting.2.2.2.2.1 (("74").toList) (("125").toList) (("226").toList)
    (("4").toList) 74 125 226 4 (by decide) (by decide) (by decide) (by decide)]
  decide

/-- Claim C2: for every canonical value x and every radix input that
resolves (necessarily to 8, 10 or 16 — supplied as a number, a numeric
string, or an o/d/h mnemonic), parsing the formatted string returns x, and
formatting in any of the three radices is value-invariant. -/
theorem C2_parse_format_roundtrip (x : Nat) (hx : x ≤ IP.MAX_VALUE) (rad : RadInput) (r : Nat)
    (hr : IP.parseRadix rad = some r) :
    (IP.format (.num (x : Int)) rad).bind (fun s => IP.parse (.str s)) = some x ∧
    (r = 8 ∨ r = 10 ∨ r = 16) ∧
    (IP.format (.num (x : Int)) (.num ⟨8, 0⟩)).bind (fun s => IP.parse (.str s)) =
      (IP.format (.num (x : Int)) (.num ⟨10, 0⟩)).bind (fun s => IP.parse (.str s)) ∧
    (IP.format (.num (x : Int)) (.num ⟨10, 0⟩)).bind (fun s => IP.parse (.str s)) =
      (IP.format (.num (x : Int)) (.num ⟨16, 0⟩)).bind (fun s => IP.parse (.str s)) := by
  refine ⟨parse_format_round x hx hr, parseRadix_values hr, ?_, ?_⟩
  · rw [parse_format_round x hx (show IP.parseRadix (.num ⟨8, 0⟩) = some 8 by decide),
      parse_format_round x hx (show IP.parseRadix (.num ⟨10, 0⟩) = some 10 by decide)]
  · rw [parse_format_round x hx (show IP.parseRadix (.num ⟨10, 0⟩) = some 10 by decide),
      parse_format_round x hx (show IP.parseRadix (.num ⟨16, 0⟩) = some 16 by decide)]

/-- Witness for C2 at 1249763844 with the mnemonic radix string `oct`. -/
theorem C2_witness :
    (IP.format (.num ((1249763844 : Nat) : Int)) (.str (("oct").toList))).bind
      (fun s => IP.parse (.str s)) = some 1249763844 :=
  (C2_parse_format_roundtrip 1249763844 (by norm_num [IP.MAX_VALUE]) (.str (("oct").toList)) 8
    (by decide)).1

/-- Claim C3 (code bug): a string containing `/` parses as the substring
after its last slash (via one-slash-at-a-time recursion), and the two
concrete examples hold (`"127.0.0.1/8"` and `"255.0.0.0"` both give 8); the
dotted branch computes `32 - ceil(log(complement+1)/LN2)` with IEEE doubles
(`jsCeilLog2`), which differs from the claimed exact
`32 - ⌈log₂(complement+1)⌉` when the complement+1 is `2^29` or `2^31`:
parsing `"224.0.0.0"` (complement+1 = `2^29`) yields 2 although the claimed
formula gives 3. -/
theorem C3_mask_parse :
    (∀ s : List Char, ('/') ∈ s →
      Mask.parse (.str s) = Mask.parse (.str (afterLastSlash s))) ∧
    Mask.parse (.str (("127.0.0.1/8").toList)) = .ok (some (.val ⟨8, 0⟩)) ∧
    Mask.parse (.str (("255.0.0.0").toList)) = .ok (some (.val ⟨8, 0⟩)) ∧
    (∀ (s : List Char) (v : Nat), strToNum s = .nan → ('/') ∉ s →
      IP.parse (.str s) = some v →
      Mask.parse (.str s) =
        .ok (some (.val ⟨(Mask.MAX_VALUE : Int) - (jsCeilLog2 (0xffffffff - v + 1) : Int),
          0⟩))) ∧
    Mask.parse (.str (("224.0.0.0").toList)) = .ok (some (.val ⟨2, 0⟩)) ∧
    (Mask.MAX_VALUE : Int) - (ceilLog2 (0xffffffff - 0xe0000000 + 1) : Int) = 3 := by
  exact ⟨fun s h => maskParse_after_last h, by decide, by decide,
    fun s v hn hs hv => maskParse_dotted hn hs hv, by decide, by decide⟩

/-- Witness for C3: the slash rule applied to `"127.0.0.1/8"`. -/
theorem C3_witness :
    Mask.parse (.str (("127.0.0.1/8").toList)) =
      Mask.parse (.str (afterLastSlash (("127.0.0.1/8").toList))) :=
  C3_mask_parse.1 (("127.0.0.1/8").toList) (by decide)

/-- Claim C4 (code bug): the mask round-trip `Mask.parse (Mask.format n) = n`
holds for every bit-length in [0, 32] except n = 3 and n = 1, where the
IEEE-double `Math.ceil(Math.log(2^29)/Math.LN2) = 30` (resp. `2^31` giving
32) makes the re-parse return 2 (resp. 0). -/
theorem C4_mask_roundtrip :
    Mask.format (.num ⟨3, 0⟩) = .ok (some (("224.0.0.0").toList)) ∧
    Mask.parse (.str (("224.0.0.0").toList)) = .ok (some (.val ⟨2, 0⟩)) ∧
    Mask.format (.num ⟨1, 0⟩) = .ok (some (("128.0.0.0").toList)) ∧
    Mask.parse (.str (("128.0.0.0").toList)) = .ok (some (.val ⟨0, 0⟩)) ∧
    (∀ n : Nat, n ≤ 32 → n ≠ 1 → n ≠ 3 →
      ∃ s, Mask.format (.num ⟨(n : Int), 0⟩) = .ok (some s) ∧
        Mask.parse (.str s) = .ok (some (.val ⟨(n : Int), 0⟩))) := by
  exact ⟨by decide, by decide, by decide, by decide,
    fun n hn h1 h3 => maskRound_nat n hn h1 h3⟩

/-- Witness for C4: the round-trip at bit-length 8. -/
theorem C4_witness :
    ∃ s, Mask.format (.num ⟨((8 : Nat) : Int), 0⟩) = .ok (some s) ∧
      Mask.parse (.str s) = .ok (some (.val ⟨((8 : Nat) : Int), 0⟩)) :=
  C4_mask_roundtrip.2.2.2.2 8 (by norm_num) (by norm_num) (by norm_num)

/-- Claim C5: on canonical addresses, `next` and `prev` are mutually inverse
away from the boundary values, and `next` of the maximum and `prev` of the
minimum both return the invalid result instead of wrapping. -/
theorem C5_next_prev (a : Nat) (ha : a ≤ IP.MAX_VALUE) :
    (a ≠ 0 → (IP.prev (.num (a : Int))).bind (fun p => IP.next (.addr (some p))) = some a) ∧
    (a ≠ IP.MAX_VALUE →
      (IP.next (.num (a : Int))).bind (fun p => IP.prev (.addr (some p))) = some a) ∧
    IP.next (.num ((IP.MAX_VALUE : Nat) : Int)) = none ∧
    IP.prev (.num ((IP.MIN_VALUE : Nat) : Int)) = none := by
  refine ⟨?_, ?_, by decide, by decide⟩
  · intro h0
    have h1 : IP.prev (.num (a : Int)) = some (a - 1) := by
      simp only [IP.prev, parse_num_eq a ha, Option.getD_some]
      rw [if_neg (by simp only [IP.MIN_VALUE]; omega)]
      rw [show ((a : Int) - 1) = ((a - 1 : Nat) : Int) by omega]
      exact parse_num_eq (a - 1) (by simp only [IP.MAX_VALUE] at *; omega)
    rw [h1, Option.some_bind]
    have hp : IP.parse (.addr (some (a - 1))) = some (a - 1) := by
      simp only [IP.parse]
      rw [if_neg (by simp only [IP.MAX_VALUE] at *; push_cast; omega)]
    simp only [IP.next, hp, Option.getD_some]
    rw [if_neg (by simp only [IP.MAX_VALUE] at *; omega)]
    rw [show ((a - 1 : Nat) : Int) + 1 = (a : Int) by omega]
    exact parse_num_eq a ha
  · intro hmax
    have h1 : IP.next (.num (a : Int)) = some (a + 1) := by
      simp only [IP.next, parse_num_eq a ha, Option.getD_some]
      rw [if_neg (by simp only [IP.MAX_VALUE] at *; omega)]
      rw [show ((a : Int) + 1) = ((a + 1 : Nat) : Int) by omega]
      exact parse_num_eq (a + 1) (by simp only [IP.MAX_VALUE] at *; omega)
    rw [h1, Option.some_bind]
    have hp : IP.parse (.addr (some (a + 1))) = some (a + 1) := by
      simp only [IP.parse]
      rw [if_neg (by simp only [IP.MAX_VALUE] at *; push_cast; omega)]
    simp only [IP.prev, hp, Option.getD_some]
    rw [if_neg (by simp only [IP.MIN_VALUE]; omega)]
    rw [show ((a + 1 : Nat) : Int) - 1 = (a : Int) by omega]
    exact parse_num_eq a ha

/-- Witness for C5 at the address 5. -/
theorem C5_witness :
    (IP.prev (.num ((5 : Nat) : Int))).bind (fun p => IP.next (.addr (some p))) = some 5 :=
  (C5_next_prev 5 (by norm_num [IP.MAX_VALUE])).1 (by norm_num)

/-- Claim C6: `IP.not` complements the four octets independently (that is its
very definition via `getParts` and `~octet & 0xff`), its result equals
`a XOR 0xFFFFFFFF`, and applying it twice returns the original address. -/
theorem C6_not_involution (a : Nat) (ha : a ≤ IP.MAX_VALUE) :
    IP.not (.num (a : Int)) = .ok (a ^^^ 0xffffffff) ∧
    a ^^^ 0xffffffff = 0xffffffff - a ∧
    IP.not (.addr (some (a ^^^ 0xffffffff))) = .ok a := by
  have hxor : a ^^^ 0xffffffff = 0xffffffff - a := by
    have h32 : (0xffffffff : Nat) = 2 ^ 32 - 1 := by norm_num
    rw [h32]
    exact xor_all_ones (by simp only [IP.MAX_VALUE] at ha; omega)
  refine ⟨?_, hxor, ?_⟩
  · rw [hxor]
    exact not_num_eq a ha
  · rw [hxor]
    rw [not_addr_eq _ (by simp only [IP.MAX_VALUE] at *; omega)]
    rw [show (0xffffffff : Nat) - (0xffffffff - a) = a by
      simp only [IP.MAX_VALUE] at ha; omega]

/-- Witness for C6 at 127.0.0.1 (2130706433). -/
theorem C6_witness :
    IP.not (.num ((2130706433 : Nat) : Int)) = .ok (2130706433 ^^^ 0xffffffff) :=
  (C6_not_involution 2130706433 (by norm_num [IP.MAX_VALUE])).1

/-- Claim C7: every malformed input to `IP.parse` — a string with an invalid
(unparseable or negative) part, a part that parses to NaN, five or more
parts, a `null` input, a NaN input, or a numeric value outside
[0, 0xFFFFFFFF] — yields the invalid sentinel (`none`), which is distinct
from `some 0`, and the model is total (no exception path exists in
`IP.parse`). -/
theorem C7_invalid_inputs :
    (∀ s : List Char, IP.splitParts s = none →
      IP.parse (.str s) = none ∧ IP.parse (.str s) ≠ some 0) ∧
    (∀ s : List Char, 5 ≤ (splitOnDot s).length → IP.parse (.str s) = none) ∧
    IP.parse .jsnull = none ∧
    (∀ n : Int, n < 0 ∨ (IP.MAX_VALUE : Int) < n → IP.parse (.num n) = none) ∧
    IP.parse .nan = none ∧
    (∀ (s : List Char) (ps : List (List Char)), IP.splitParts s = some ps →
      ∀ p ∈ ps, IP.parsePart p = .pnan → IP.parse (.str s) = none) := by
  refine ⟨?_, fun s h => parse_ge5 h, by decide, ?_, rfl,
    fun s ps hs p hp hn => parse_with_nan_part hs hp hn⟩
  · intro s h
    have hnone : IP.parseStr s = none := by
      unfold IP.parseStr
      rw [h]
      rfl
    exact ⟨hnone, by rw [show IP.parse (.str s) = IP.parseStr s from rfl, hnone]; simp⟩
  · intro n hn
    simp only [IP.parse]
    rw [if_pos hn]

/-- Witness for C7 on the unparseable string `hello`. -/
theorem C7_witness : IP.parse (.str (("hello").toList)) = none :=
  (C7_invalid_inputs.1 (("hello").toList) (by decide)).1

/-- Counterexample for C8: formatting with the unresolvable radix 7 does not
return the invalid sentinel — it silently formats in decimal — even though
`IP.parseRadix` itself rejects 7. -/
theorem C8_counterexample :
    IP.format (.num 0) (.num ⟨7, 0⟩) = some (("0.0.0.0").toList) ∧
    IP.parseRadix (.num ⟨7, 0⟩) = none := by
  exact ⟨by decide, by decide⟩

/-- Claim C8 as amended: a supplied radix that does not resolve to 8, 10 or
16 is coalesced to the default 10 by `|| 10`, so `IP.format` silently formats
in decimal (a non-`none` result) instead of returning the invalid result. -/
theorem C8_radix_default (rad : RadInput) (hr : IP.parseRadix rad = none) (x : Nat)
    (hx : x ≤ IP.MAX_VALUE) :
    IP.format (.num (x : Int)) rad = IP.format (.num (x : Int)) (.num ⟨10, 0⟩) ∧
    (IP.format (.num (x : Int)) rad).isSome = true := by
  have hp := parse_num_eq x hx
  have h10 : IP.parseRadix (.num ⟨10, 0⟩) = some 10 := by decide
  constructor
  · simp only [IP.format, hp, hr, h10, Option.getD_none, Option.getD_some]
  · simp only [IP.format, hp, hr, Option.getD_none, Option.isSome_some]

/-- Witness for C8 at value 0 and radix 7. -/
theorem C8_witness :
    IP.format (.num ((0 : Nat) : Int)) (.num ⟨7, 0⟩) =
      IP.format (.num ((0 : Nat) : Int)) (.num ⟨10, 0⟩) :=
  (C8_radix_default (.num ⟨7, 0⟩) (by decide) 0 (by norm_num [IP.MAX_VALUE])).1

/-- Counterexample for C9: `IP.parse` applied to the empty string returns the
invalid sentinel, not 0. -/
theorem C9_counterexample : IP.parse (.str (("").toList)) = none := by decide

/-- Claim C9 as amended: the zero-parts branch of `IP.addParts` does give 0,
but it is unreachable from `IP.parse`: splitting the empty string yields one
empty part (`[""]`), whose `parseInt` is NaN, so `IP.parse ""` is invalid. -/
theorem C9_empty_string :
    IP.addParts (some []) = .num 0 ∧
    splitOnDot (("").toList) = [[]] ∧
    IP.parsePart (("").toList) = .pnan ∧
    IP.parse (.str (("").toList)) = none := by
  exact ⟨rfl, rfl, rfl, by decide⟩

/-- Counterexample for C10: `Mask.parse` accepts the numeric input -1 and
returns -1, which is outside [0, 32]. -/
theorem C10_counterexample :
    Mask.parse (.num ⟨-1, 0⟩) = .ok (some (.val ⟨-1, 0⟩)) ∧
    (JSDec.mk (-1) 0).toRat < 0 := by
  constructor
  · decide
  · norm_num [JSDec.toRat]

/-- Claim C10 as amended: any numeric input that is at most 32 — including
negative or fractional values — passes through `Mask.parse` unchanged, so
accepted results need not lie in [0, 32]; only the dotted-mask branch
guarantees an integer bit-length in [0, 32]. -/
theorem C10_mask_values :
    (∀ d : JSDec, d.leInt (Mask.MAX_VALUE : Int) = true →
      Mask.parse (.num d) = .ok (some (.val d))) ∧
    (∀ (s : List Char) (v : Nat), strToNum s = .nan → ('/') ∉ s →
      IP.parse (.str s) = some v →
      ∃ n : Nat, n ≤ 32 ∧ Mask.parse (.str s) = .ok (some (.val ⟨(n : Int), 0⟩))) := by
  refine ⟨fun d hd => maskParse_num_le hd, ?_⟩
  intro s v hn hs hv
  have hb : jsCeilLog2 (0xffffffff - v + 1) ≤ 32 := by
    apply jsCeilLog2_le32
    have := parse_le_max hv
    simp only [IP.MAX_VALUE] at this
    omega
  refine ⟨32 - jsCeilLog2 (0xffffffff - v + 1), by omega, ?_⟩
  rw [maskParse_dotted hn hs hv]
  simp only [Mask.MAX_VALUE, Except.ok.injEq, Option.some.injEq, JSNum.val.injEq,
    JSDec.mk.injEq, and_true]
  push_cast
  omega

/-- Witness for C10 on the dotted mask `255.0.0.0`. -/
theorem C10_witness :
    ∃ n : Nat, n ≤ 32 ∧
      Mask.parse (.str (("255.0.0.0").toList)) = .ok (some (.val ⟨(n : Int), 0⟩)) :=
  C10_mask_values.2 (("255.0.0.0").toList) 0xff000000 (by decide) (by decide) (by decide)
